import Mathlib

set_option maxRecDepth 4000

/-!
Shallow embedding of the attention-control subsystem of the prompt-to-prompt
repository (src/prompt-to-prompt_stable.py and src/prompt-to-prompt_ldm.py),
together with theorems settling the frozen claims about it.

Conventions used throughout:
* tensors are modelled as functions out of `Fin`-indexed coordinate types,
  with entries in `ℚ` (exact arithmetic stands in for float arithmetic;
  the one place where IEEE specials decide a claim, the normalisation
  division of LocalBlend, uses an explicit value type `Fl` with nan/inf);
* the flat leading axis of an attention tensor, of size `batch * heads`,
  is modelled as `Fin (B * h)`, and the `reshape(batch_size, h, ...)` /
  `reshape(batch_size * h, ...)` views of `AttentionControlEdit.forward`
  are explicit index-arithmetic functions `reshapeBH` / `flattenBH`;
* quantities produced by collaborator modules that are not part of the
  two source files (ptp_utils, seq_aligner) enter as parameters: the
  cross-replace schedule, the replacement / refinement mappers and the
  word-index lookup results are universally quantified inputs.
-/

/-- Counter state of the abstract `AttentionControl` interceptor:
`cur_step` and `cur_att_layer` as set up in `AttentionControl.__init__`
and `AttentionControl.reset`. -/
structure CtrlState where
  curStep : Nat
  curAttLayer : Nat
deriving DecidableEq

/-- The counter state after `reset` / `__init__`: both counters zero. -/
def resetState : CtrlState := { curStep := 0, curAttLayer := 0 }

/-- Counter bookkeeping of one `AttentionControl.__call__` hook invocation:
increment `cur_att_layer`; when it reaches the per-step layer count
(`num_att_layers + num_uncond_att_layers`, which is `num_att_layers` both in
the ldm variant and in the stable variant with `LOW_RESOURCE = False` since
`num_uncond_att_layers` is then `0`), zero it and increment `cur_step`.
`between_steps` is invoked exactly at that wrap. -/
def callCounters (numAttLayers : Nat) (s : CtrlState) : CtrlState :=
  if s.curAttLayer + 1 = numAttLayers then
    { curStep := s.curStep + 1, curAttLayer := 0 }
  else
    { curStep := s.curStep, curAttLayer := s.curAttLayer + 1 }

/-- Whether the end-of-step hook `between_steps` fires during a given
hook invocation: exactly when the incremented `cur_att_layer` equals the
per-step layer count. -/
def betweenStepsFires (numAttLayers : Nat) (s : CtrlState) : Bool :=
  s.curAttLayer + 1 = numAttLayers

/-! The `AttentionControlEdit.forward` transform.  The attention tensor has
flat shape `(batch_size * h, p, w)`; the method reshapes it to
`(batch_size, h, p, w)`, splits off the source row (batch index 0) and the
edited rows (batch indices 1 .. batch_size-1), rewrites the edited rows,
and reshapes back.  `AttentionStore.forward`, called first via `super()`,
only appends to the per-step scratch store and returns the tensor
unchanged, so the returned value is as modelled here; the store side
effect is modelled separately below. -/

/-- The `attn.reshape(self.batch_size, h, *attn.shape[1:])` view: batch
row `b`, head `j` of the batched view is flat row `b * h + j`. -/
def reshapeBH {α : Type} (B h : Nat) (attn : Fin (B * h) → α) :
    Fin B → Fin h → α :=
  fun b j => attn ⟨b.val * h + j.val, by
    have hb := b.isLt
    have hj := j.isLt
    have h1 : b.val * h + j.val < (b.val + 1) * h := by
      have : (b.val + 1) * h = b.val * h + h := by ring
      omega
    have h2 : (b.val + 1) * h ≤ B * h := Nat.mul_le_mul_right h hb
    omega⟩

/-- The inverse `attn.reshape(self.batch_size * h, *attn.shape[2:])` view:
flat row `r` is batch row `r / h`, head `r % h`. -/
def flattenBH {α : Type} (B h : Nat) (attn : Fin B → Fin h → α) :
    Fin (B * h) → α :=
  fun r =>
    attn ⟨r.val / h, by
        have hr := r.isLt
        have hh : 0 < h := by
          rcases Nat.eq_zero_or_pos h with h0 | h1
          · exact absurd hr (by simp [h0])
          · exact h1
        rw [Nat.div_lt_iff_lt_mul hh]
        have hc : B * h = h * B := by ring
        omega⟩
      ⟨r.val % h, by
        have hr := r.isLt
        have hh : 0 < h := by
          rcases Nat.eq_zero_or_pos h with h0 | h1
          · exact absurd hr (by simp [h0])
          · exact h1
        exact Nat.mod_lt _ hh⟩

/-- Flat index of batch row `b`, head `j`. -/
def flatIdx (B h : Nat) (b : Fin B) (j : Fin h) : Fin (B * h) :=
  ⟨b.val * h + j.val, by
    have hb := b.isLt
    have hj := j.isLt
    have h1 : (b.val + 1) * h = b.val * h + h := by ring
    have h2 : (b.val + 1) * h ≤ B * h := Nat.mul_le_mul_right h hb
    omega⟩

/-- Embedding of an edited-row index (0 .. B-2) into the batch
(batch indices 1 .. B-1). -/
def succIdx {B : Nat} (r : Fin (B - 1)) : Fin B :=
  ⟨r.val + 1, by have := r.isLt; omega⟩

/-- Python `int()` applied to an exact rational: truncation toward zero
(`int(num_steps * self_replace_steps[i])`). -/
def pyInt (q : ℚ) : ℤ := Int.tdiv q.num q.den

/-- `self.num_self_replace = int(num_steps * self_replace_steps[0]),
int(num_steps * self_replace_steps[1])` from
`AttentionControlEdit.__init__`. -/
def numSelfReplace (numSteps : Nat) (s : ℚ × ℚ) : ℤ × ℤ :=
  (pyInt (numSteps * s.1), pyInt (numSteps * s.2))

/-- Normalisation of a bare float `self_replace_steps` to the pair
`0, self_replace_steps` in `AttentionControlEdit.__init__`. -/
def selfReplaceStepsOfFloat (s : ℚ) : ℚ × ℚ := (0, s)

/-- `AttentionControlEdit.replace_self_attention`: if the query-position
count (`att_replace.shape[2]`) is at most `16 ** 2`, broadcast the source
row's pattern to every edited row; otherwise return the edited rows
unchanged. -/
def replaceSelfAttention (R h p w : Nat)
    (attnBase : Fin h → Fin p → Fin w → ℚ)
    (attReplace : Fin R → Fin h → Fin p → Fin w → ℚ) :
    Fin R → Fin h → Fin p → Fin w → ℚ :=
  if p ≤ 16 ^ 2 then fun _ => attnBase else attReplace

/-- `AttentionControlEdit.forward`.  Parameters supplied by collaborators
outside the two source files enter as arguments: `cra` is the
`cross_replace_alpha` schedule (built by
`ptp_utils.get_time_words_attention_alpha`, indexed by step, edited row and
token position), and `rcf` is the subclass-specific
`replace_cross_attention` (taking the source row and the edited rows).
`nsr` is `self.num_self_replace`.  The transform fires for cross-attention
calls, and for self-attention calls whose current step lies in the
half-open self-replace window; otherwise the tensor is returned as is. -/
def editForward (B h p w : Nat) (isCross : Bool) (curStep : Nat)
    (nsr : ℤ × ℤ)
    (cra : Nat → Fin (B - 1) → Fin w → ℚ)
    (rcf : (Fin h → Fin p → Fin w → ℚ) →
      (Fin (B - 1) → Fin h → Fin p → Fin w → ℚ) →
      Fin (B - 1) → Fin h → Fin p → Fin w → ℚ)
    (attn : Fin (B * h) → Fin p → Fin w → ℚ) :
    Fin (B * h) → Fin p → Fin w → ℚ :=
  if hB : 0 < B then
    if isCross = true ∨ (nsr.1 ≤ (curStep : ℤ) ∧ (curStep : ℤ) < nsr.2) then
      let attnR := reshapeBH B h attn
      let attnBase := attnR ⟨0, hB⟩
      let attnRepl : Fin (B - 1) → Fin h → Fin p → Fin w → ℚ :=
        fun r => attnR (succIdx r)
      let newRepl : Fin (B - 1) → Fin h → Fin p → Fin w → ℚ :=
        if isCross then
          fun r j q t => rcf attnBase attnRepl r j q t * cra curStep r t
            + (1 - cra curStep r t) * attnRepl r j q t
        else replaceSelfAttention (B - 1) h p w attnBase attnRepl
      let updated : Fin B → Fin h → Fin p → Fin w → ℚ :=
        fun b => if hb : b.val = 0 then attnBase
          else newRepl ⟨b.val - 1, by have := b.isLt; omega⟩
      flattenBH B h updated
    else attn
  else attn

/-- Source-row view (`attn_base = attn[0]` after the reshape). -/
def baseRow (B h p w : Nat) (attn : Fin (B * h) → Fin p → Fin w → ℚ) :
    Fin h → Fin p → Fin w → ℚ :=
  if hB : 0 < B then reshapeBH B h attn ⟨0, hB⟩ else fun _ _ _ => 0

/-- Edited-rows view (`attn_repalce = attn[1:]` after the reshape). -/
def editedRows (B h p w : Nat) (attn : Fin (B * h) → Fin p → Fin w → ℚ) :
    Fin (B - 1) → Fin h → Fin p → Fin w → ℚ :=
  fun r => reshapeBH B h attn (succIdx r)

/-! The three concrete `replace_cross_attention` implementations.  The
mappers and alignment alphas are built by `seq_aligner` (not part of the two
source files) and enter as parameters; `R` is the number of edited rows. -/

/-- `AttentionReplace.replace_cross_attention`:
`torch.einsum('hpw,bwn->bhpn', attn_base, self.mapper)`. -/
def replaceRCA (R h p w : Nat) (mapper : Fin R → Fin w → Fin w → ℚ)
    (attnBase : Fin h → Fin p → Fin w → ℚ)
    (attReplace : Fin R → Fin h → Fin p → Fin w → ℚ) :
    Fin R → Fin h → Fin p → Fin w → ℚ :=
  fun b j q n => ∑ t : Fin w, attnBase j q t * mapper b t n

/-- `AttentionRefine.replace_cross_attention`:
`attn_base[:, :, self.mapper].permute(2, 0, 1, 3)` blended against the
edited rows with the per-position alignment alphas. -/
def refineRCA (R h p w : Nat) (mapper : Fin R → Fin w → Fin w)
    (alphas : Fin R → Fin w → ℚ)
    (attnBase : Fin h → Fin p → Fin w → ℚ)
    (attReplace : Fin R → Fin h → Fin p → Fin w → ℚ) :
    Fin R → Fin h → Fin p → Fin w → ℚ :=
  fun b j q t => attnBase j q (mapper b t) * alphas b t
    + attReplace b j q t * (1 - alphas b t)

/-- `AttentionReweight.replace_cross_attention`: optionally delegate to the
wrapped previous controller's transform, then scale by the per-token
equalizer (`attn_base[None, :, :, :] * self.equalizer[:, None, None, :]`,
broadcast across heads and query positions). -/
def reweightRCA (R h p w : Nat)
    (prevController : Option ((Fin h → Fin p → Fin w → ℚ) →
      (Fin R → Fin h → Fin p → Fin w → ℚ) →
      Fin R → Fin h → Fin p → Fin w → ℚ))
    (equalizer : Fin R → Fin w → ℚ)
    (attnBase : Fin h → Fin p → Fin w → ℚ)
    (attReplace : Fin R → Fin h → Fin p → Fin w → ℚ) :
    Fin R → Fin h → Fin p → Fin w → ℚ :=
  match prevController with
  | none => fun b j q t => attnBase j q t * equalizer b t
  | some f => fun b j q t => f attnBase attReplace b j q t * equalizer b t

/-- `get_equalizer(text, word_select, values)`: start from
`torch.ones(len(values), 77)` and assign the `values` column vector at
every token index resolved for the selected word(s).  The index resolution
`ptp_utils.get_word_inds` is not part of the two source files, so the
resolved index list `inds` is a parameter. -/
def getEqualizer (inds : List (Fin 77)) (values : List ℚ) :
    Fin values.length → Fin 77 → ℚ :=
  fun v t => if t ∈ inds then values.get v else 1

/-! C7 concerns shape compatibility: `AttentionReweight.__init__` stores the
equalizer without any validation, so a batch-dimension mismatch can only
surface (if at all) as a broadcast failure on the first cross-attention
`forward` call.  The PyTorch broadcast and slice-assignment rules for the
rank-4 shapes involved are modelled below. -/

/-- PyTorch broadcast of one pair of same-rank dimensions: equal sizes
broadcast to themselves, a size-1 dimension stretches to the other size,
anything else is a failure. -/
def bdim (a b : Nat) : Option Nat :=
  if a = b then some a else if a = 1 then some b
  else if b = 1 then some a else none

/-- PyTorch broadcast of two rank-4 shapes. -/
def broadcast4 (s u : Nat × Nat × Nat × Nat) :
    Option (Nat × Nat × Nat × Nat) :=
  (bdim s.1 u.1).bind fun a =>
  (bdim s.2.1 u.2.1).bind fun b =>
  (bdim s.2.2.1 u.2.2.1).bind fun c =>
  (bdim s.2.2.2 u.2.2.2).map fun d => (a, b, c, d)

/-- PyTorch in-place slice assignment `lhs[...] = rhs`: each dimension of
the right-hand side must equal the destination dimension or be 1. -/
def assignOk (rhs lhs : Nat × Nat × Nat × Nat) : Bool :=
  (rhs.1 == lhs.1 || rhs.1 == 1) && (rhs.2.1 == lhs.2.1 || rhs.2.1 == 1)
    && (rhs.2.2.1 == lhs.2.2.1 || rhs.2.2.1 == 1)
    && (rhs.2.2.2 == lhs.2.2.2 || rhs.2.2.2 == 1)

/-- Shape trace of the first use of an `AttentionReweight` controller with
no previous controller on a cross-attention call: in
`replace_cross_attention`, `attn_base[None]` of shape `(1, h, p, 77)` is
multiplied by `equalizer[:, None, None, :]` of shape `(V, 1, 1, 77)`; in
`forward`, the result is multiplied by `alpha_words` of shape
`(R, 1, 1, 77)`, added to `(1 - alpha_words) * attn_repalce` of shape
`(R, h, p, 77)`, and assigned into `attn[1:]` of shape `(R, h, p, 77)`.
`V` is the equalizer's batch dimension (`len(values)`), `R` the number of
edited rows.  Returns whether the whole call succeeds. -/
def reweightFirstUseOk (V R h p : Nat) : Bool :=
  match (broadcast4 (1, h, p, 77) (V, 1, 1, 77)).bind (fun s1 =>
      (broadcast4 s1 (R, 1, 1, 77)).bind (fun s2 =>
        (broadcast4 (R, 1, 1, 77) (R, h, p, 77)).bind (fun s2b =>
          broadcast4 s2 s2b))) with
  | some s3 => assignOk s3 (R, h, p, 77)
  | none => false

/-! The `AttentionStore` accumulation machinery.  Stored attention tensors
are modelled as functions `ι → ℚ` over an abstract entry-index type `ι`
(flattened row/position/token coordinates); a store maps each of the six
region keys to the ordered list of tensors appended during qualifying hook
calls. -/

/-- The six region keys of `get_empty_store`. -/
inductive StoreKey where
  | downCross | midCross | upCross | downSelf | midSelf | upSelf
deriving DecidableEq

/-- A store: one ordered list of tensors per region key. -/
abbrev Store (ι : Type) : Type := StoreKey → List (ι → ℚ)

/-- `get_empty_store()`: every key maps to an empty list. -/
def emptyStore (ι : Type) : Store ι := fun _ => []

/-- The mutable state of an `AttentionStore`: the step counter, the
per-step scratch `step_store`, and the running accumulator
`attention_store` (`none` models the initial empty dict `{}`, which is how
`between_steps` distinguishes the first completed step). -/
structure AttnStoreState (ι : Type) where
  curStep : Nat
  stepStore : Store ι
  attentionStore : Option (Store ι)

/-- `AttentionStore.__init__` / `reset`: counter zero, empty scratch,
empty accumulator dict. -/
def initStoreState (ι : Type) : AttnStoreState ι :=
  { curStep := 0, stepStore := emptyStore ι, attentionStore := none }

/-- The elementwise merge loop of `between_steps`:
`attention_store[key][i] += step_store[key][i]` for `i` over the
accumulator's list (the lists are index-aligned when the host network's
layer topology is constant across steps, which is the stated invariant). -/
def addMaps {ι : Type} (acc new : List (ι → ℚ)) : List (ι → ℚ) :=
  List.zipWith (fun a b => fun i => a i + b i) acc new

/-- `AttentionStore.between_steps`: on the first completed step assign the
scratch as the accumulator, afterwards add it elementwise; then clear the
scratch. -/
def betweenSteps {ι : Type} (s : AttnStoreState ι) : AttnStoreState ι :=
  match s.attentionStore with
  | none =>
      { s with
        stepStore := emptyStore ι
        attentionStore := some s.stepStore }
  | some acc =>
      { s with
        stepStore := emptyStore ι
        attentionStore := some (fun k => addMaps (acc k) (s.stepStore k)) }

/-- One completed timestep, as driven by `AttentionControl.__call__`: the
step's qualifying hook calls fill the scratch store, the final call of the
step increments `cur_step` and invokes `between_steps`. -/
def processStep {ι : Type} (scratch : Store ι) (s : AttnStoreState ι) :
    AttnStoreState ι :=
  betweenSteps { s with stepStore := scratch, curStep := s.curStep + 1 }

/-- A session of completed timesteps with the given per-step scratch
contents, starting from the freshly initialised store. -/
def runStore {ι : Type} (steps : List (Store ι)) : AttnStoreState ι :=
  steps.foldl (fun st sc => processStep sc st) (initStoreState ι)

/-- `AttentionStore.get_average_attention`: divide every accumulated tensor
elementwise by `cur_step` (on the empty initial dict the comprehension
returns the empty dict, modelled as `none`). -/
def getAverageAttention {ι : Type} (s : AttnStoreState ι) :
    Option (Store ι) :=
  s.attentionStore.map (fun acc => fun k =>
    (acc k).map (fun m => fun i => m i / (s.curStep : ℚ)))

/-- The accumulator described by the spec and built by `between_steps`:
assign the first step's scratch, then add each later step's scratch
elementwise. -/
def accumStores {ι : Type} : List (Store ι) → Option (Store ι)
  | [] => none
  | s :: rest =>
      some (rest.foldl (fun acc st => fun k => addMaps (acc k) (st k)) s)

/-! The `LocalBlend` mask pipeline.  Stored 16x16 cross-attention maps are
taken in their `item.reshape(B, -1, 1, 16, 16, MAX_NUM_WORDS)` view (batch
element, head slice, spatial y/x, token).  Exact rationals model the float
arithmetic except at the normalisation division `mask / mask.max(...)`,
whose IEEE behaviour on a zero maximum (0/0 = NaN, v/0 = +-inf, and NaN or
-inf comparing false under `.gt`) is modelled by the value type `Fl`. -/

/-- A float value as produced by the normalisation division: a finite
rational, NaN, or a signed infinity. -/
inductive Fl where
  | nan : Fl
  | neginf : Fl
  | num : ℚ → Fl
  | posinf : Fl
deriving DecidableEq

/-- The division `v / m` of the normalisation step under IEEE semantics
for exact inputs: finite when the divisor is nonzero; on a zero divisor,
`0/0` is NaN and `v/0` is the signed infinity of `v`. -/
def divNorm (v m : ℚ) : Fl :=
  if m = 0 then
    (if v = 0 then Fl.nan else if 0 < v then Fl.posinf else Fl.neginf)
  else Fl.num (v / m)

/-- `mask.gt(threshold)` on a possibly non-finite value: NaN and negative
infinity compare false, positive infinity true. -/
def gtFl (f : Fl) (t : ℚ) : Bool :=
  match f with
  | Fl.nan => false
  | Fl.neginf => false
  | Fl.num q => decide (t < q)
  | Fl.posinf => true

/-- A stored 16x16 cross-attention map in its reshaped
`(B, heads, 1, 16, 16, 77)` view. -/
abbrev AttnMap (B hd : Nat) : Type :=
  Fin B → Fin hd → Fin 16 → Fin 16 → Fin 77 → ℚ

/-- `LocalBlend.__init__`: `alpha_layers` is zeros with ones assigned at
the token indices resolved for each prompt's tracked words; the index
resolution `ptp_utils.get_word_inds` is not part of the two source files,
so the resolved index lists enter as a parameter. -/
def alphaLayersOfWords (B : Nat) (inds : Fin B → List (Fin 77)) :
    Fin B → Fin 77 → ℚ :=
  fun b t => if t ∈ inds b then 1 else 0

/-- Map selection of the stable-variant `LocalBlend.__call__`:
`attention_store["down_cross"][2:4] + attention_store["up_cross"][:3]`. -/
def selectStable {B hd : Nat} (downCross upCross : List (AttnMap B hd)) :
    List (AttnMap B hd) :=
  (downCross.drop 2).take 2 ++ upCross.take 3

/-- Map selection of the ldm-variant `LocalBlend.__call__`:
`attention_store["down_cross"][:2] + attention_store["up_cross"][3:6]`. -/
def selectLdm {B hd : Nat} (downCross upCross : List (AttnMap B hd)) :
    List (AttnMap B hd) :=
  downCross.take 2 ++ (upCross.drop 3).take 3

/-- The per-pixel saliency `(maps * self.alpha_layers).sum(-1).mean(1)`
after concatenating the selected maps along the head axis: the mean over
all (map, head) slices of the token-weighted sums. -/
def saliency (B hd : Nat) (alpha : Fin B → Fin 77 → ℚ)
    (sel : List (AttnMap B hd)) (b : Fin B) (y x : Fin 16) : ℚ :=
  (sel.map (fun m => ∑ j : Fin hd, ∑ t : Fin 77, m b j y x t * alpha b t)).sum
    / ((sel.length * hd : Nat) : ℚ)

/-- Spatial indices within the `k = 1` pooling window around `v`
(`max_pool2d` with kernel 3, stride 1, padding 1: the padding is filled
with negative infinity, so the result is the maximum over the in-bounds
neighbours). -/
def neighborsIdx (n : Nat) (v : Fin n) : List (Fin n) :=
  (List.finRange n).filter
    (fun u => decide (u.val ≤ v.val + 1 ∧ v.val ≤ u.val + 1))

/-- `nnf.max_pool2d(maps, (3, 3), (1, 1), padding=(1, 1))` at one spatial
location: the maximum over the in-bounds 3x3 neighbourhood. -/
def maxPool3 (m : Fin 16 → Fin 16 → ℚ) (y x : Fin 16) : ℚ :=
  ((neighborsIdx 16 y).product (neighborsIdx 16 x)).foldl
    (fun acc u => max acc (m u.1 u.2)) (m y x)

/-- `nnf.interpolate(..., size=x_t.shape[2:])` with the default nearest
mode, from the 16x16 grid to the latent's `H x W` grid. -/
def interpNearest (H W : Nat) (m : Fin 16 → Fin 16 → ℚ)
    (y : Fin H) (x : Fin W) : ℚ :=
  m ⟨y.val * 16 / H, by
      have hy := y.isLt
      have h0 : 0 < H := by omega
      have h1 : y.val * 16 < H * 16 := (Nat.mul_lt_mul_right (by omega)).mpr hy
      rw [Nat.div_lt_iff_lt_mul h0, Nat.mul_comm 16 H]
      exact h1⟩
    ⟨x.val * 16 / W, by
      have hx := x.isLt
      have h0 : 0 < W := by omega
      have h1 : x.val * 16 < W * 16 := (Nat.mul_lt_mul_right (by omega)).mpr hx
      rw [Nat.div_lt_iff_lt_mul h0, Nat.mul_comm 16 W]
      exact h1⟩

/-- The per-element spatial maximum
`mask.max(2, keepdims=True)[0].max(3, keepdims=True)[0]` used as the
normalisation divisor. -/
def tmax2 (H W : Nat) (m : Fin H → Fin W → ℚ) (hH : 0 < H) (hW : 0 < W) :
    ℚ :=
  ((List.finRange H).product (List.finRange W)).foldl
    (fun acc u => max acc (m u.1 u.2)) (m ⟨0, hH⟩ ⟨0, hW⟩)

/-- The pre-normalisation per-element map of the stable variant: max-pool
smoothing of the saliency, then the resize to the latent grid
(`mask = nnf.max_pool2d(maps, ...)`, `mask = nnf.interpolate(mask, ...)`). -/
def preNormStable (B hd H W : Nat) (alpha : Fin B → Fin 77 → ℚ)
    (sel : List (AttnMap B hd)) (b : Fin B) (y : Fin H) (x : Fin W) : ℚ :=
  interpNearest H W (maxPool3 (saliency B hd alpha sel b)) y x

/-- The pre-normalisation per-element map of the ldm variant: the
max-pool result is computed but then discarded, because the resize step
reads `maps` instead of `mask`
(`mask = nnf.max_pool2d(maps, ...)`, `mask = nnf.interpolate(maps, ...)`). -/
def preNormLdm (B hd H W : Nat) (alpha : Fin B → Fin 77 → ℚ)
    (sel : List (AttnMap B hd)) (b : Fin B) (y : Fin H) (x : Fin W) : ℚ :=
  interpNearest H W (saliency B hd alpha sel b) y x

/-- The thresholded per-element mask before the row union:
`mask = mask / mask.max(2, keepdims=True)[0].max(3, keepdims=True)[0]`
then `mask = mask.gt(self.threshold)`, for a given pre-normalisation
map. -/
def threshMask (H W : Nat) (hH : 0 < H) (hW : 0 < W)
    (pre : Fin H → Fin W → ℚ) (θ : ℚ) (y : Fin H) (x : Fin W) : Bool :=
  gtFl (divNorm (pre y x) (tmax2 H W pre hH hW)) θ

/-- `mask.float()` on a thresholded boolean. -/
def boolToQ (b : Bool) : ℚ := if b then 1 else 0

/-- The final union and application of the stable variant for its
batch-of-2 use (`mask = (mask[:1] + mask[1:]).float()` then
`x_t = x_t[:1] + mask * (x_t - x_t[:1])`; the summed boolean masks union
as logical or, and the resulting single spatial mask broadcasts over both
batch rows). -/
def unionApplyStable (C H W : Nat) (mask : Fin 2 → Fin H → Fin W → Bool)
    (x : Fin 2 → Fin C → Fin H → Fin W → ℚ) :
    Fin 2 → Fin C → Fin H → Fin W → ℚ :=
  fun b c y xx => x 0 c y xx
    + boolToQ (mask 0 y xx || mask 1 y xx) * (x b c y xx - x 0 c y xx)

/-- The final union and application of the ldm variant
(`mask = (mask[:1] + mask).float()` then
`x_t = x_t[:1] + mask * (x_t - x_t[:1])`: each row's mask is unioned with
the source row's). -/
def unionApplyLdm (C H W : Nat) (mask : Fin 2 → Fin H → Fin W → Bool)
    (x : Fin 2 → Fin C → Fin H → Fin W → ℚ) :
    Fin 2 → Fin C → Fin H → Fin W → ℚ :=
  fun b c y xx => x 0 c y xx
    + boolToQ (mask 0 y xx || mask b y xx) * (x b c y xx - x 0 c y xx)

/-- The stable-variant `LocalBlend.__call__` on a batch of 2. -/
def localBlendStable (hd C H W : Nat) (hH : 0 < H) (hW : 0 < W)
    (alpha : Fin 2 → Fin 77 → ℚ) (θ : ℚ)
    (downCross upCross : List (AttnMap 2 hd))
    (x : Fin 2 → Fin C → Fin H → Fin W → ℚ) :
    Fin 2 → Fin C → Fin H → Fin W → ℚ :=
  unionApplyStable C H W
    (fun b => threshMask H W hH hW
      (preNormStable 2 hd H W alpha (selectStable downCross upCross) b) θ) x

/-- The ldm-variant `LocalBlend.__call__` on a batch of 2. -/
def localBlendLdm (hd C H W : Nat) (hH : 0 < H) (hW : 0 < W)
    (alpha : Fin 2 → Fin 77 → ℚ) (θ : ℚ)
    (downCross upCross : List (AttnMap 2 hd))
    (x : Fin 2 → Fin C → Fin H → Fin W → ℚ) :
    Fin 2 → Fin C → Fin H → Fin W → ℚ :=
  unionApplyLdm C H W
    (fun b => threshMask H W hH hW
      (preNormLdm 2 hd H W alpha (selectLdm downCross upCross) b) θ) x

lemma callCounters_linear (L : Nat) (s : CtrlState) :
    (callCounters L s).curStep * L + (callCounters L s).curAttLayer
      = s.curStep * L + s.curAttLayer + 1 := by
  unfold callCounters
  by_cases h : s.curAttLayer + 1 = L
  · simp only [h, if_true]
    have h2 : (s.curStep + 1) * L = s.curStep * L + L := by ring
    rw [h2, Nat.add_zero, ← h]
    ring
  · simp only [h, if_false]
    ring

lemma iterate_callCounters_linear (L : Nat) (m : Nat) :
    ((callCounters L)^[m] resetState).curStep * L
      + ((callCounters L)^[m] resetState).curAttLayer = m := by
  induction m with
  | zero => simp [resetState]
  | succ k ih =>
    rw [Function.iterate_succ_apply', callCounters_linear, ih]

lemma callCounters_layer_lt (L : Nat) (hL : 1 ≤ L) (s : CtrlState)
    (hs : s.curAttLayer < L) : (callCounters L s).curAttLayer < L := by
  unfold callCounters
  by_cases h : s.curAttLayer + 1 = L
  · simp only [h, if_true]; omega
  · simp only [h, if_false]; omega

lemma iterate_callCounters_layer_lt (L : Nat) (hL : 1 ≤ L) (m : Nat) :
    ((callCounters L)^[m] resetState).curAttLayer < L := by
  induction m with
  | zero => simpa [resetState] using hL
  | succ k ih =>
    rw [Function.iterate_succ_apply']
    exact callCounters_layer_lt L hL _ ih

/-- C3: Over a session of `num_steps` complete passes of `layers_per_step`
hook calls each, starting from the reset state, the counter bookkeeping of
`AttentionControl.__call__` satisfies: `cur_att_layer` stays strictly below
the per-step layer count after every call; after exactly
`num_steps * layers_per_step` calls `cur_step` equals `num_steps` and
`cur_att_layer` is zero; `cur_step` never exceeds `num_steps` along the way;
and on every single call from a state with `cur_att_layer < layers_per_step`,
either it wraps (the incremented layer counter hits the per-step count, the
layer counter is zeroed, the step counter is incremented and the end-of-step
hook fires) or it does not (the layer counter just increments, the step
counter is unchanged and the hook does not fire). -/
theorem attention_control_counter_invariants (L n : Nat) (hL : 1 ≤ L) :
    (∀ m, m ≤ n * L → ((callCounters L)^[m] resetState).curAttLayer < L) ∧
    ((callCounters L)^[n * L] resetState).curStep = n ∧
    ((callCounters L)^[n * L] resetState).curAttLayer = 0 ∧
    (∀ m, m ≤ n * L → ((callCounters L)^[m] resetState).curStep ≤ n) ∧
    (∀ s : CtrlState, s.curAttLayer < L →
      ((s.curAttLayer + 1 = L ∧ (callCounters L s).curAttLayer = 0 ∧
          (callCounters L s).curStep = s.curStep + 1 ∧
          betweenStepsFires L s = true) ∨
        (s.curAttLayer + 1 ≠ L ∧
          (callCounters L s).curAttLayer = s.curAttLayer + 1 ∧
          (callCounters L s).curStep = s.curStep ∧
          betweenStepsFires L s = false))) := by
  have key : ∀ c a : Nat, c * L + a = n * L → a < L → c = n ∧ a = 0 := by
    intro c a hlin hlt
    have hcn : c ≤ n :=
      Nat.le_of_mul_le_mul_right (Nat.le.intro hlin) (by omega)
    have hnc : n ≤ c := by
      have h1 : n * L < c * L + L := by
        rw [← hlin]; exact Nat.add_lt_add_left hlt _
      have h2 : n * L < (c + 1) * L := by
        have h3 : (c + 1) * L = c * L + L := by ring
        rw [h3]; exact h1
      exact Nat.lt_succ_iff.mp (Nat.lt_of_mul_lt_mul_right h2)
    have hce : c = n := le_antisymm hcn hnc
    subst hce
    exact ⟨rfl, Nat.add_left_cancel (hlin.trans (Nat.add_zero _).symm)⟩
  have hstep := key _ _ (iterate_callCounters_linear L (n * L))
    (iterate_callCounters_layer_lt L hL (n * L))
  refine ⟨fun m _ => iterate_callCounters_layer_lt L hL m, hstep.1, hstep.2,
    fun m hm => ?_, fun s hs => ?_⟩
  · have hlin := iterate_callCounters_linear L m
    have h1 : ((callCounters L)^[m] resetState).curStep * L ≤ n * L :=
      le_trans (Nat.le.intro hlin) hm
    exact Nat.le_of_mul_le_mul_right h1 (by omega)
  · by_cases h : s.curAttLayer + 1 = L
    · exact Or.inl ⟨h, by simp [callCounters, h], by simp [callCounters, h],
        by simp [betweenStepsFires, h]⟩
    · exact Or.inr ⟨h, by simp [callCounters, h], by simp [callCounters, h],
        by simp [betweenStepsFires, h]⟩

/-- Witness for C3 at a concrete session: 3 steps of 2 layers each. -/
theorem attention_control_counter_invariants_witness :
    ((callCounters 2)^[3 * 2] resetState).curStep = 3 ∧
    ((callCounters 2)^[3 * 2] resetState).curAttLayer = 0 := by
  have h := attention_control_counter_invariants 2 3 (by decide)
  exact ⟨h.2.1, h.2.2.1⟩

lemma idx_div (b j h : Nat) (hj : j < h) : (b * h + j) / h = b := by
  rw [Nat.add_comm, Nat.mul_comm, Nat.add_mul_div_left _ _ (by omega : 0 < h),
    Nat.div_eq_of_lt hj, Nat.zero_add]

lemma idx_mod (b j h : Nat) (hj : j < h) : (b * h + j) % h = j := by
  rw [Nat.add_comm, Nat.mul_comm, Nat.add_mul_mod_self_left,
    Nat.mod_eq_of_lt hj]

lemma flattenBH_spec {α : Type} (B h : Nat) (f : Fin B → Fin h → α)
    (r : Fin (B * h)) (b : Fin B) (j : Fin h)
    (hd : r.val / h = b.val) (hm : r.val % h = j.val) :
    flattenBH B h f r = f b j := by
  rcases b with ⟨bv, hbv⟩
  rcases j with ⟨jv, hjv⟩
  simp only at hd hm
  subst hd
  subst hm
  rfl

lemma flattenBH_flatIdx {α : Type} (B h : Nat) (f : Fin B → Fin h → α)
    (b : Fin B) (j : Fin h) : flattenBH B h f (flatIdx B h b j) = f b j :=
  flattenBH_spec B h f (flatIdx B h b j) b j
    (idx_div b.val j.val h j.isLt) (idx_mod b.val j.val h j.isLt)

lemma flattenBH_reshapeBH {α : Type} (B h : Nat)
    (attn : Fin (B * h) → α) (r : Fin (B * h)) :
    flattenBH B h (reshapeBH B h attn) r = attn r := by
  simp only [flattenBH, reshapeBH]
  exact congrArg attn (Fin.ext (Nat.div_add_mod' r.val h))

lemma editForward_apply_edited (B h p w : Nat) (h0B : 0 < B) (isCross : Bool)
    (curStep : Nat) (nsr : ℤ × ℤ)
    (cra : Nat → Fin (B - 1) → Fin w → ℚ)
    (rcf : (Fin h → Fin p → Fin w → ℚ) →
      (Fin (B - 1) → Fin h → Fin p → Fin w → ℚ) →
      Fin (B - 1) → Fin h → Fin p → Fin w → ℚ)
    (attn : Fin (B * h) → Fin p → Fin w → ℚ)
    (bR : Fin (B - 1)) (j : Fin h)
    (hg : isCross = true ∨ (nsr.1 ≤ (curStep : ℤ) ∧ (curStep : ℤ) < nsr.2)) :
    editForward B h p w isCross curStep nsr cra rcf attn
        (flatIdx B h (succIdx bR) j)
      = if isCross then
          fun q t =>
            rcf (baseRow B h p w attn) (editedRows B h p w attn) bR j q t
              * cra curStep bR t
            + (1 - cra curStep bR t) * editedRows B h p w attn bR j q t
        else
          replaceSelfAttention (B - 1) h p w (baseRow B h p w attn)
            (editedRows B h p w attn) bR j := by
  simp only [editForward, dif_pos h0B, if_pos hg]
  rw [flattenBH_flatIdx]
  have hne : ¬ ((succIdx bR).val = 0) := by simp [succIdx]
  rw [dif_neg hne]
  have hidx : ∀ (pf : (succIdx bR).val - 1 < B - 1),
      (⟨(succIdx bR).val - 1, pf⟩ : Fin (B - 1)) = bR := by
    intro pf
    exact Fin.ext (by simp [succIdx])
  rw [hidx]
  simp only [baseRow, editedRows, dif_pos h0B]
  by_cases hc : isCross = true
  · simp only [if_pos hc]
    rfl
  · simp only [if_neg hc]
    rfl

lemma editForward_noop (B h p w : Nat) (isCross : Bool)
    (curStep : Nat) (nsr : ℤ × ℤ)
    (cra : Nat → Fin (B - 1) → Fin w → ℚ)
    (rcf : (Fin h → Fin p → Fin w → ℚ) →
      (Fin (B - 1) → Fin h → Fin p → Fin w → ℚ) →
      Fin (B - 1) → Fin h → Fin p → Fin w → ℚ)
    (attn : Fin (B * h) → Fin p → Fin w → ℚ)
    (hg : ¬ (isCross = true ∨ (nsr.1 ≤ (curStep : ℤ) ∧ (curStep : ℤ) < nsr.2))) :
    editForward B h p w isCross curStep nsr cra rcf attn = attn := by
  by_cases h0B : 0 < B
  · simp only [editForward, dif_pos h0B, if_neg hg]
  · simp only [editForward, dif_neg h0B]

/-- C1: On a cross-attention hook call of an edit controller with batch size
at least 2, each entry of every returned edited row (batch rows 1 .. N-1 of
the reshaped tensor) is the elementwise convex combination
`replace_cross_attention(source_row, edited_rows) * alpha
+ (1 - alpha) * edited_rows`, where `alpha` is the per-timestep, per-token
`cross_replace_alpha` schedule entry for the current step; the edited-rows
view is exactly the corresponding slice of the incoming tensor; where
`alpha = 1` the entry equals the candidate replacement exactly, and where
`alpha = 0` it equals the incoming edited row's own attention unchanged. -/
theorem cross_attention_convex_blend (B h p w : Nat) (hB : 2 ≤ B)
    (curStep : Nat) (nsr : ℤ × ℤ)
    (cra : Nat → Fin (B - 1) → Fin w → ℚ)
    (rcf : (Fin h → Fin p → Fin w → ℚ) →
      (Fin (B - 1) → Fin h → Fin p → Fin w → ℚ) →
      Fin (B - 1) → Fin h → Fin p → Fin w → ℚ)
    (attn : Fin (B * h) → Fin p → Fin w → ℚ)
    (bR : Fin (B - 1)) (j : Fin h) (q : Fin p) (t : Fin w) :
    (editForward B h p w true curStep nsr cra rcf attn
        (flatIdx B h (succIdx bR) j) q t
      = rcf (baseRow B h p w attn) (editedRows B h p w attn) bR j q t
          * cra curStep bR t
        + (1 - cra curStep bR t) * attn (flatIdx B h (succIdx bR) j) q t) ∧
    (editedRows B h p w attn bR j q t
      = attn (flatIdx B h (succIdx bR) j) q t) ∧
    (cra curStep bR t = 1 →
      editForward B h p w true curStep nsr cra rcf attn
          (flatIdx B h (succIdx bR) j) q t
        = rcf (baseRow B h p w attn) (editedRows B h p w attn) bR j q t) ∧
    (cra curStep bR t = 0 →
      editForward B h p w true curStep nsr cra rcf attn
          (flatIdx B h (succIdx bR) j) q t
        = attn (flatIdx B h (succIdx bR) j) q t) := by
  have h0B : 0 < B := by omega
  have he := editForward_apply_edited B h p w h0B true curStep nsr cra rcf
    attn bR j (Or.inl rfl)
  simp only [if_pos] at he
  have hE : editedRows B h p w attn bR j q t
      = attn (flatIdx B h (succIdx bR) j) q t := by
    simp only [editedRows, reshapeBH, flatIdx]
  have hpt := congrFun (congrFun he q) t
  refine ⟨?_, hE, ?_, ?_⟩
  · simp only [hpt]
    rw [hE]
  · intro h1
    simp only [hpt]
    rw [h1, hE]
    ring
  · intro h0
    simp only [hpt]
    rw [h0, hE]
    ring

/-- Witness for C1 at a concrete input: batch size 2, one head, one query
position, one token position, schedule value 1/2. -/
theorem cross_attention_convex_blend_witness :
    editForward 2 1 1 1 true 0 (0, 1) (fun _ _ _ => (1 : ℚ) / 2)
        (fun base _ _ j q => base j q) (fun r _ _ => (r.val : ℚ))
        (flatIdx 2 1 (succIdx 0) 0) 0 0
      = (fun base _ _ j q => base j q) (baseRow 2 1 1 1 (fun r _ _ => (r.val : ℚ)))
          (editedRows 2 1 1 1 (fun r _ _ => (r.val : ℚ))) 0 0 0 0 * (1 / 2)
        + (1 - 1 / 2) * (fun r _ _ => (r.val : ℚ)) (flatIdx 2 1 (succIdx 0) 0) 0 0 :=
  (cross_attention_convex_blend 2 1 1 1 (by decide) 0 (0, 1)
    (fun _ _ _ => (1 : ℚ) / 2) (fun base _ _ j q => base j q)
    (fun r _ _ => (r.val : ℚ)) 0 0 0 0).1

/-- C9: On every hook call of every edit controller, whatever the
subclass-specific cross-attention transform and schedule, the source
prompt's rows (batch index 0 after the reshape into
`(batch_size, heads, ...)`) of the returned tensor are unchanged: the edit
writes only batch rows 1 .. N-1. -/
theorem edit_source_row_unchanged (B h p w : Nat) (hB : 0 < B)
    (isCross : Bool) (curStep : Nat) (nsr : ℤ × ℤ)
    (cra : Nat → Fin (B - 1) → Fin w → ℚ)
    (rcf : (Fin h → Fin p → Fin w → ℚ) →
      (Fin (B - 1) → Fin h → Fin p → Fin w → ℚ) →
      Fin (B - 1) → Fin h → Fin p → Fin w → ℚ)
    (attn : Fin (B * h) → Fin p → Fin w → ℚ)
    (j : Fin h) (q : Fin p) (t : Fin w) :
    editForward B h p w isCross curStep nsr cra rcf attn
        (flatIdx B h ⟨0, hB⟩ j) q t
      = attn (flatIdx B h ⟨0, hB⟩ j) q t := by
  by_cases hg : isCross = true ∨ (nsr.1 ≤ (curStep : ℤ) ∧ (curStep : ℤ) < nsr.2)
  · simp only [editForward, dif_pos hB, if_pos hg]
    rw [flattenBH_flatIdx]
    rw [dif_pos rfl]
    simp only [reshapeBH, flatIdx]
  · rw [editForward_noop B h p w isCross curStep nsr cra rcf attn hg]

/-- Witness for C9 at a concrete input: batch size 2, one head, a
self-attention call outside the replace window. -/
theorem edit_source_row_unchanged_witness :
    editForward 2 1 1 1 false 5 (0, 1) (fun _ _ _ => (1 : ℚ))
        (fun base _ _ j q => base j q) (fun r _ _ => (r.val : ℚ))
        (flatIdx 2 1 ⟨0, by decide⟩ 0) 0 0
      = (fun r _ _ => (r.val : ℚ)) (flatIdx 2 1 ⟨0, by decide⟩ 0) 0 0 :=
  edit_source_row_unchanged 2 1 1 1 (by decide) false 5 (0, 1)
    (fun _ _ _ => (1 : ℚ)) (fun base _ _ j q => base j q)
    (fun r _ _ => (r.val : ℚ)) 0 0 0

lemma flattenBH_ext_eq {α : Type} (B h : Nat) (F : Fin B → Fin h → α)
    (attn : Fin (B * h) → α)
    (hF : ∀ (b : Fin B) (j : Fin h), F b j = attn (flatIdx B h b j))
    (r : Fin (B * h)) : flattenBH B h F r = attn r := by
  unfold flattenBH
  rw [hF]
  exact congrArg attn (Fin.ext (by simpa [flatIdx] using Nat.div_add_mod' r.val h))

/-- C2: On a self-attention hook call of an edit controller: if the current
step lies in the half-open window `[int(num_steps * start),
int(num_steps * end))` derived from `self_replace_steps` and the
query-position count is at most `16 ** 2`, every entry of every edited row
of the returned tensor equals the source row's self-attention pattern
(batch row 0, same head, query and key position); if the query-position
count exceeds `16 ** 2` the tensor is returned entrywise unchanged (in
particular the edited rows are unchanged); and for steps outside the window
the self-attention tensor is not transformed at all. -/
theorem self_attention_window_replace (B h p w : Nat) (hB : 2 ≤ B)
    (numSteps : Nat) (s : ℚ × ℚ) (curStep : Nat)
    (cra : Nat → Fin (B - 1) → Fin w → ℚ)
    (rcf : (Fin h → Fin p → Fin w → ℚ) →
      (Fin (B - 1) → Fin h → Fin p → Fin w → ℚ) →
      Fin (B - 1) → Fin h → Fin p → Fin w → ℚ)
    (attn : Fin (B * h) → Fin p → Fin w → ℚ) :
    (((numSelfReplace numSteps s).1 ≤ (curStep : ℤ) ∧
        (curStep : ℤ) < (numSelfReplace numSteps s).2) → p ≤ 16 ^ 2 →
      ∀ (bR : Fin (B - 1)) (j : Fin h) (q : Fin p) (t : Fin w),
        editForward B h p w false curStep (numSelfReplace numSteps s) cra rcf
            attn (flatIdx B h (succIdx bR) j) q t
          = attn (flatIdx B h ⟨0, by omega⟩ j) q t) ∧
    (((numSelfReplace numSteps s).1 ≤ (curStep : ℤ) ∧
        (curStep : ℤ) < (numSelfReplace numSteps s).2) → 16 ^ 2 < p →
      ∀ (r : Fin (B * h)) (q : Fin p) (t : Fin w),
        editForward B h p w false curStep (numSelfReplace numSteps s) cra rcf
            attn r q t = attn r q t) ∧
    (¬ ((numSelfReplace numSteps s).1 ≤ (curStep : ℤ) ∧
        (curStep : ℤ) < (numSelfReplace numSteps s).2) →
      editForward B h p w false curStep (numSelfReplace numSteps s) cra rcf
          attn = attn) := by
  have h0B : 0 < B := by omega
  refine ⟨?_, ?_, ?_⟩
  · intro hwin hp bR j q t
    have he := editForward_apply_edited B h p w h0B false curStep
      (numSelfReplace numSteps s) cra rcf attn bR j (Or.inr hwin)
    rw [if_neg (by simp)] at he
    rw [he]
    simp only [replaceSelfAttention, if_pos hp]
    simp only [baseRow, dif_pos h0B, reshapeBH, flatIdx]
  · intro hwin hp r q t
    have hcond : (false = true) ∨
        ((numSelfReplace numSteps s).1 ≤ (curStep : ℤ) ∧
          (curStep : ℤ) < (numSelfReplace numSteps s).2) := Or.inr hwin
    simp only [editForward, dif_pos h0B, if_pos hcond]
    refine congrFun (congrFun (flattenBH_ext_eq B h _ attn ?_ r) q) t
    intro b j
    by_cases hb : b.val = 0
    · rw [dif_pos hb]
      simp only [reshapeBH, flatIdx]
      exact congrArg attn (Fin.ext (by simp [hb]))
    · rw [dif_neg hb]
      rw [if_neg (by simp : ¬ false = true)]
      simp only [replaceSelfAttention, if_neg (by omega : ¬ p ≤ 16 ^ 2)]
      simp only [reshapeBH, flatIdx, succIdx]
      exact congrArg attn (Fin.ext (by simp; omega))
  · intro hwin
    exact editForward_noop B h p w false curStep (numSelfReplace numSteps s)
      cra rcf attn (by simp [hwin])

/-- Witness for C2 at a concrete input: batch size 2, one head, 4 query
positions, window `[0, 5)` from `self_replace_steps = (0, 1/2)` over 10
steps, current step 2. -/
theorem self_attention_window_replace_witness :
    ((numSelfReplace 10 (0, 1 / 2)).1 ≤ ((2 : Nat) : ℤ) ∧
      ((2 : Nat) : ℤ) < (numSelfReplace 10 (0, 1 / 2)).2) ∧
    (4 : Nat) ≤ 16 ^ 2 ∧
    editForward 2 1 4 1 false 2 (numSelfReplace 10 (0, 1 / 2))
        (fun _ _ _ => (1 : ℚ)) (fun base _ _ j q => base j q)
        (fun r _ _ => (r.val : ℚ)) (flatIdx 2 1 (succIdx 0) 0) 0 0
      = (fun r _ _ => (r.val : ℚ)) (flatIdx 2 1 ⟨0, by omega⟩ 0) 0 0 := by
  have hwin : (numSelfReplace 10 (0, 1 / 2)).1 ≤ ((2 : Nat) : ℤ) ∧
      ((2 : Nat) : ℤ) < (numSelfReplace 10 (0, 1 / 2)).2 := by
    norm_num [numSelfReplace, pyInt]
  refine ⟨hwin, by decide, ?_⟩
  exact (self_attention_window_replace 2 1 4 1 (by decide) 10 (0, 1 / 2) 2
    (fun _ _ _ => (1 : ℚ)) (fun base _ _ j q => base j q)
    (fun r _ _ => (r.val : ℚ))).1 hwin (by decide) 0 0 0 0

/-- C6: With `values = (2.0,)`, `get_equalizer` scales the Reweight
cross-attention replacement to exactly double the value obtained with
`values = (1.0,)` at every token position resolved for the selected word,
while at every other token position the scaling factor is exactly `1` and
the two replacements coincide (and equal the raw source-row attention). -/
theorem equalizer_doubles_selected_positions (inds : List (Fin 77))
    (h p : Nat) (attnBase : Fin h → Fin p → Fin 77 → ℚ)
    (attReplace : Fin 1 → Fin h → Fin p → Fin 77 → ℚ)
    (v : Fin 1) (j : Fin h) (q : Fin p) (t : Fin 77) :
    (getEqualizer inds [2] v t = if t ∈ inds then 2 else 1) ∧
    (getEqualizer inds [1] v t = 1) ∧
    (t ∈ inds →
      reweightRCA 1 h p 77 none (getEqualizer inds [2]) attnBase attReplace
          v j q t
        = 2 * reweightRCA 1 h p 77 none (getEqualizer inds [1]) attnBase
            attReplace v j q t) ∧
    (¬ t ∈ inds →
      reweightRCA 1 h p 77 none (getEqualizer inds [2]) attnBase attReplace
          v j q t
        = reweightRCA 1 h p 77 none (getEqualizer inds [1]) attnBase
            attReplace v j q t) ∧
    (reweightRCA 1 h p 77 none (getEqualizer inds [1]) attnBase attReplace
        v j q t = attnBase j q t) := by
  have hv : v = ⟨0, Nat.one_pos⟩ := Fin.ext (by omega)
  subst hv
  refine ⟨?_, ?_, ?_, ?_, ?_⟩
  · by_cases ht : t ∈ inds
    · simp [getEqualizer, ht]
    · simp [getEqualizer, ht]
  · by_cases ht : t ∈ inds
    · simp [getEqualizer, ht]
    · simp [getEqualizer, ht]
  · intro ht
    simp [reweightRCA, getEqualizer, ht]
    ring
  · intro ht
    simp [reweightRCA, getEqualizer, ht]
  · simp [reweightRCA, getEqualizer]

/-- Witness for C6 at a concrete input: word resolved to token index 3,
source attention constant 5. -/
theorem equalizer_doubles_selected_positions_witness :
    reweightRCA 1 1 1 77 none (getEqualizer [(3 : Fin 77)] [2])
        (fun _ _ _ => (5 : ℚ)) (fun _ _ _ _ => (7 : ℚ)) 0 0 0 3
      = 2 * reweightRCA 1 1 1 77 none (getEqualizer [(3 : Fin 77)] [1])
          (fun _ _ _ => (5 : ℚ)) (fun _ _ _ _ => (7 : ℚ)) 0 0 0 3 :=
  (equalizer_doubles_selected_positions [(3 : Fin 77)] 1 1
    (fun _ _ _ => (5 : ℚ)) (fun _ _ _ _ => (7 : ℚ)) 0 0 0 3).2.2.1
    (by decide)

lemma bdim_one_left (b : Nat) : bdim 1 b = some b := by
  unfold bdim
  by_cases h1 : (1 : Nat) = b
  · rw [if_pos h1, h1]
  · rw [if_neg h1, if_pos rfl]

lemma bdim_one_right (a : Nat) : bdim a 1 = some a := by
  unfold bdim
  by_cases h1 : a = 1
  · rw [if_pos h1]
  · rw [if_neg h1, if_neg h1, if_pos rfl]

lemma bdim_self (a : Nat) : bdim a a = some a := by
  unfold bdim
  rw [if_pos rfl]

lemma bdim_none (a b : Nat) (ha : a ≠ 1) (hb : b ≠ 1) (hab : a ≠ b) :
    bdim a b = none := by
  unfold bdim
  rw [if_neg hab, if_neg ha, if_neg hb]

lemma broadcast4_group (V h p : Nat) :
    broadcast4 (1, h, p, 77) (V, 1, 1, 77) = some (V, h, p, 77) := by
  simp [broadcast4, bdim_one_left, bdim_one_right, bdim_self]

/-- Counterexample for C7: an equalizer with batch dimension 1 used with 2
edited rows (batch size 3) is a mismatch, yet construction performs no
check and the first `forward` use succeeds by silent broadcasting — no
failure surfaces. -/
theorem reweight_equalizer_mismatch_not_detected :
    (1 : Nat) ≠ 2 ∧ reweightFirstUseOk 1 2 8 256 = true := by
  refine ⟨by decide, ?_⟩
  decide

/-- C7 amended: on first use, the reweight pipeline fails exactly when the
equalizer's batch dimension is neither 1 nor equal to the number of edited
rows; a batch dimension of 1 silently broadcasts across all edited rows
(and nothing is ever checked at construction time). -/
theorem reweight_first_use_shape_check (V R h p : Nat)
    (hV : 1 ≤ V) (hR : 1 ≤ R) :
    reweightFirstUseOk V R h p = true ↔ (V = 1 ∨ V = R) := by
  unfold reweightFirstUseOk
  rw [broadcast4_group]
  by_cases hV1 : V = 1
  · subst hV1
    have h2 : broadcast4 (1, h, p, 77) (R, 1, 1, 77) = some (R, h, p, 77) := by
      simp [broadcast4, bdim_one_left, bdim_one_right, bdim_self]
    have h2b : broadcast4 (R, 1, 1, 77) (R, h, p, 77) = some (R, h, p, 77) := by
      simp [broadcast4, bdim_one_left, bdim_self]
    have h3 : broadcast4 (R, h, p, 77) (R, h, p, 77) = some (R, h, p, 77) := by
      simp [broadcast4, bdim_self]
    simp [Option.some_bind, h2, h2b, h3, assignOk]
  · by_cases hVR : V = R
    · subst hVR
      have h2 : broadcast4 (V, h, p, 77) (V, 1, 1, 77) = some (V, h, p, 77) := by
        simp [broadcast4, bdim_one_right, bdim_self]
      have h2b : broadcast4 (V, 1, 1, 77) (V, h, p, 77) = some (V, h, p, 77) := by
        simp [broadcast4, bdim_one_left, bdim_self]
      have h3 : broadcast4 (V, h, p, 77) (V, h, p, 77) = some (V, h, p, 77) := by
        simp [broadcast4, bdim_self]
      simp [Option.some_bind, h2, h2b, h3, assignOk]
    · by_cases hR1 : R = 1
      · subst hR1
        have h2 : broadcast4 (V, h, p, 77) (1, 1, 1, 77) = some (V, h, p, 77) := by
          simp [broadcast4, bdim_one_right, bdim_self]
        have h2b : broadcast4 (1, 1, 1, 77) (1, h, p, 77)
            = some (1, h, p, 77) := by
          simp [broadcast4, bdim_one_left, bdim_self]
        have h3 : broadcast4 (V, h, p, 77) (1, h, p, 77)
            = some (V, h, p, 77) := by
          simp [broadcast4, bdim_one_right, bdim_self]
        simp [Option.some_bind, h2, h2b, h3, assignOk, hV1, hVR]
      · have h2 : broadcast4 (V, h, p, 77) (R, 1, 1, 77) = none := by
          simp [broadcast4, bdim_none V R hV1 hR1 hVR]
        simp [Option.some_bind, h2, hV1, hVR]

/-- Witness for C7's amended theorem at a concrete matched input. -/
theorem reweight_first_use_shape_check_witness :
    reweightFirstUseOk 3 3 4 5 = true :=
  (reweight_first_use_shape_check 3 3 4 5 (by decide) (by decide)).mpr
    (Or.inr rfl)

lemma processStep_curStep {ι : Type} (sc : Store ι) (s : AttnStoreState ι) :
    (processStep sc s).curStep = s.curStep + 1 := by
  unfold processStep betweenSteps
  rcases s.attentionStore <;> rfl

lemma foldl_processStep_curStep {ι : Type} (steps : List (Store ι)) :
    ∀ s : AttnStoreState ι,
      (steps.foldl (fun st sc => processStep sc st) s).curStep
        = s.curStep + steps.length := by
  induction steps with
  | nil => intro s; rfl
  | cons st rest ih =>
    intro s
    rw [List.foldl_cons, ih, processStep_curStep, List.length_cons]
    ring

lemma processStep_some {ι : Type} (sc : Store ι) (c : Nat) (ss : Store ι)
    (A : Store ι) :
    processStep sc ⟨c, ss, some A⟩
      = ⟨c + 1, emptyStore ι, some (fun k => addMaps (A k) (sc k))⟩ := by
  simp [processStep, betweenSteps]

lemma foldl_processStep_acc {ι : Type} (rest : List (Store ι)) :
    ∀ (c : Nat) (ss : Store ι) (A : Store ι),
      ((rest.foldl (fun st sc => processStep sc st)
          (⟨c, ss, some A⟩ : AttnStoreState ι)).attentionStore)
        = some (rest.foldl (fun acc st => fun k => addMaps (acc k) (st k)) A) := by
  induction rest with
  | nil => intro c ss A; rfl
  | cons st rest2 ih =>
    intro c ss A
    rw [List.foldl_cons, processStep_some, ih, List.foldl_cons]

lemma addMaps_length {ι : Type} (a b : List (ι → ℚ)) :
    (addMaps a b).length = min a.length b.length := by
  simp [addMaps]

lemma addMaps_getD {ι : Type} (a b : List (ι → ℚ)) (jj : Nat)
    (ha : jj < a.length) (hb : jj < b.length) (i : ι) :
    (addMaps a b).getD jj (fun _ => 0) i
      = a.getD jj (fun _ => 0) i + b.getD jj (fun _ => 0) i := by
  have hab : jj < (addMaps a b).length := by
    rw [addMaps_length]; omega
  rw [List.getD_eq_getElem _ _ hab, List.getD_eq_getElem _ _ ha,
    List.getD_eq_getElem _ _ hb]
  simp [addMaps]

lemma foldl_addMaps_pointwise {ι : Type} (k : StoreKey) (len : Nat)
    (rest : List (Store ι)) :
    ∀ A : Store ι, (A k).length = len →
      (∀ st ∈ rest, (st k).length = len) →
      (((rest.foldl (fun acc st => fun kk => addMaps (acc kk) (st kk)) A) k).length
          = len ∧
        ∀ (jj : Nat), jj < len → ∀ i : ι,
          ((rest.foldl (fun acc st => fun kk => addMaps (acc kk) (st kk)) A) k).getD
              jj (fun _ => 0) i
            = (A k).getD jj (fun _ => 0) i
              + (rest.map (fun st => (st k).getD jj (fun _ => 0) i)).sum) := by
  induction rest with
  | nil =>
    intro A hA _
    refine ⟨hA, fun jj hj i => ?_⟩
    simp
  | cons st rest2 ih =>
    intro A hA hrest
    have hst : (st k).length = len := hrest st (List.mem_cons_self st rest2)
    have hA2 : ((fun kk => addMaps (A kk) (st kk)) k).length = len := by
      simp only []
      rw [addMaps_length, hA, hst]
      omega
    have hrest2 : ∀ st2 ∈ rest2, (st2 k).length = len :=
      fun st2 h2 => hrest st2 (List.mem_cons_of_mem st h2)
    obtain ⟨hlen2, hpt⟩ := ih (fun kk => addMaps (A kk) (st kk)) hA2 hrest2
    refine ⟨by simpa using hlen2, fun jj hj i => ?_⟩
    rw [List.foldl_cons]
    rw [hpt jj hj i]
    have hja : jj < (A k).length := by rw [hA]; exact hj
    have hjs : jj < (st k).length := by rw [hst]; exact hj
    rw [addMaps_getD (A k) (st k) jj hja hjs i]
    rw [List.map_cons, List.sum_cons]
    ring

/-- C4: After `K >= 1` completed timesteps with per-step scratch contents
`steps` whose per-key list lengths agree across steps, the store's step
counter equals `K`, its accumulator is exactly the assign-then-add fold of
the scratches, `get_average_attention` returns that accumulator divided
elementwise by `K`, and each accumulator entry is elementwise the sum of
the corresponding per-step tensors. -/
theorem store_average_is_accumulator_div_steps {ι : Type}
    (steps : List (Store ι)) (len : StoreKey → Nat)
    (hne : steps ≠ [])
    (hlen : ∀ st ∈ steps, ∀ k, (st k).length = len k) :
    (runStore steps).curStep = steps.length ∧
    (runStore steps).attentionStore = accumStores steps ∧
    getAverageAttention (runStore steps)
      = (accumStores steps).map (fun A => fun k =>
          (A k).map (fun m => fun i => m i / ((steps.length : ℚ)))) ∧
    (∀ A : Store ι, accumStores steps = some A →
      ∀ k : StoreKey, (A k).length = len k ∧
        ∀ (jj : Nat), jj < len k → ∀ i : ι,
          (A k).getD jj (fun _ => 0) i
            = (steps.map (fun st => (st k).getD jj (fun _ => 0) i)).sum) := by
  obtain ⟨s0, rest, rfl⟩ : ∃ s0 rest, steps = s0 :: rest := by
    rcases steps with _ | ⟨s0, rest⟩
    · exact absurd rfl hne
    · exact ⟨s0, rest, rfl⟩
  have hcur : (runStore (s0 :: rest)).curStep = (s0 :: rest).length := by
    unfold runStore
    rw [List.foldl_cons, foldl_processStep_curStep, processStep_curStep]
    simp [initStoreState]
    omega
  have hacc : (runStore (s0 :: rest)).attentionStore
      = accumStores (s0 :: rest) := by
    unfold runStore
    rw [List.foldl_cons]
    have h1 : processStep s0 (initStoreState ι)
        = ⟨1, emptyStore ι, some s0⟩ := rfl
    rw [h1, foldl_processStep_acc]
    rfl
  refine ⟨hcur, hacc, ?_, ?_⟩
  · unfold getAverageAttention
    rw [hacc, hcur]
  · intro A hA k
    have hs0 : (s0 k).length = len k :=
      hlen s0 (List.mem_cons_self s0 rest) k
    have hrestk : ∀ st ∈ rest, (st k).length = len k :=
      fun st h2 => hlen st (List.mem_cons_of_mem s0 h2) k
    have hAval : A = rest.foldl (fun acc st => fun kk => addMaps (acc kk) (st kk)) s0 := by
      have := hA
      unfold accumStores at this
      exact (Option.some_injective _ this.symm)
    subst hAval
    obtain ⟨hlenA, hpt⟩ :=
      foldl_addMaps_pointwise k (len k) rest s0 hs0 hrestk
    refine ⟨hlenA, fun jj hj i => ?_⟩
    rw [hpt jj hj i, List.map_cons, List.sum_cons]

/-- Witness for C4 at a concrete session: two completed steps, one stored
map per key of constant values 1 and 3. -/
theorem store_average_is_accumulator_div_steps_witness :
    (runStore ([fun _ => [fun _ => (1 : ℚ)], fun _ => [fun _ => (3 : ℚ)]] :
        List (Store (Fin 1)))).curStep
      = ([fun _ => [fun _ => (1 : ℚ)], fun _ => [fun _ => (3 : ℚ)]] :
          List (Store (Fin 1))).length := by
  have hlen : ∀ st ∈ ([fun _ => [fun _ => (1 : ℚ)],
      fun _ => [fun _ => (3 : ℚ)]] : List (Store (Fin 1))),
      ∀ k : StoreKey, (st k).length = 1 := by
    intro st hst k
    rcases List.mem_cons.mp hst with rfl | hst2
    · rfl
    rcases List.mem_cons.mp hst2 with rfl | h3
    · rfl
    · exact absurd h3 (List.not_mem_nil st)
  exact (store_average_is_accumulator_div_steps _ (fun _ => 1)
    (List.cons_ne_nil _ _) hlen).1

lemma foldl_max_init_le {α : Type} (g : α → ℚ) (l : List α) :
    ∀ a : ℚ, a ≤ l.foldl (fun acc u => max acc (g u)) a := by
  induction l with
  | nil => intro a; exact le_refl a
  | cons hd tl ih =>
    intro a
    rw [List.foldl_cons]
    exact le_trans (le_max_left a (g hd)) (ih (max a (g hd)))

lemma foldl_max_mem_le {α : Type} (g : α → ℚ) (l : List α) :
    ∀ (a : ℚ) (u : α), u ∈ l →
      g u ≤ l.foldl (fun acc v => max acc (g v)) a := by
  induction l with
  | nil => intro a u hu; exact absurd hu (List.not_mem_nil u)
  | cons hd tl ih =>
    intro a u hu
    rw [List.foldl_cons]
    rcases List.mem_cons.mp hu with rfl | hu2
    · exact le_trans (le_max_right a (g u)) (foldl_max_init_le g tl _)
    · exact ih (max a (g hd)) u hu2

lemma foldl_max_eq_of_le {α : Type} (g : α → ℚ) (l : List α) :
    ∀ a : ℚ, (∀ u ∈ l, g u ≤ a) →
      l.foldl (fun acc u => max acc (g u)) a = a := by
  induction l with
  | nil => intro a _; rfl
  | cons hd tl ih =>
    intro a hle
    rw [List.foldl_cons, max_eq_left (hle hd (List.mem_cons_self hd tl))]
    exact ih a (fun u hu => hle u (List.mem_cons_of_mem hd hu))

lemma boolToQ_true : boolToQ true = 1 := rfl

lemma boolToQ_false : boolToQ false = 0 := rfl

lemma tmax2_entry_le (H W : Nat) (m : Fin H → Fin W → ℚ)
    (hH : 0 < H) (hW : 0 < W) (y : Fin H) (x : Fin W) :
    m y x ≤ tmax2 H W m hH hW := by
  unfold tmax2
  have hmem : ((y, x) : Fin H × Fin W)
      ∈ (List.finRange H).product (List.finRange W) := by
    unfold List.product
    exact List.mem_flatMap.mpr ⟨y, List.mem_finRange y,
      List.mem_map.mpr ⟨x, List.mem_finRange x, rfl⟩⟩
  exact foldl_max_mem_le (fun u : Fin H × Fin W => m u.1 u.2)
    ((List.finRange H).product (List.finRange W))
    (m ⟨0, hH⟩ ⟨0, hW⟩) (y, x) hmem

/-- C5: In the final mask application of `LocalBlend.__call__`
(`x_t = x_t[:1] + mask * (x_t - x_t[:1])` after the row union), an
all-ones mask returns every row of the latent batch unchanged
(`source + 1 * (rows - source) = rows`), and an all-zero mask returns the
source row (index 0) broadcast to every row. -/
theorem local_blend_mask_extremes (C H W : Nat)
    (mask : Fin 2 → Fin H → Fin W → Bool)
    (x : Fin 2 → Fin C → Fin H → Fin W → ℚ) :
    ((∀ b y xx, mask b y xx = true) →
      ∀ b c y xx, unionApplyStable C H W mask x b c y xx = x b c y xx) ∧
    ((∀ b y xx, mask b y xx = false) →
      ∀ b c y xx, unionApplyStable C H W mask x b c y xx = x 0 c y xx) := by
  constructor
  · intro hall b c y xx
    simp only [unionApplyStable, hall 0 y xx, hall 1 y xx, Bool.or_self,
      boolToQ_true]
    ring
  · intro hall b c y xx
    simp only [unionApplyStable, hall 0 y xx, hall 1 y xx, Bool.or_self,
      boolToQ_false]
    ring

/-- Witness for C5 at a concrete input: an all-ones 1x1 mask leaves the
edited row of the latent unchanged. -/
theorem local_blend_mask_extremes_witness :
    unionApplyStable 1 1 1 (fun _ _ _ => true)
        (fun b _ _ _ => (b.val : ℚ)) 1 0 0 0 = (1 : ℚ) :=
  ((local_blend_mask_extremes 1 1 1 (fun _ _ _ => true)
    (fun b _ _ _ => (b.val : ℚ))).1 (fun _ _ _ => rfl) 1 0 0 0).trans
    (by norm_num)

/-- C8: When a batch element's pre-normalisation saliency map has a
maximum of exactly zero, the normalisation division is a defined edge
case: every entry of the map is then at most zero, each normalised value
is NaN (0/0) or negative infinity (negative/0), `.gt(threshold)` is false
on all of them, so that element's thresholded mask is all-zero; and when
this holds for both batch elements, the blended latent is forced back to
the source row everywhere — no crash, a well-defined result. -/
theorem local_blend_zero_max_mask (hd C H W : Nat) (hH : 0 < H)
    (hW : 0 < W) (alpha : Fin 2 → Fin 77 → ℚ) (θ : ℚ)
    (downCross upCross : List (AttnMap 2 hd))
    (x : Fin 2 → Fin C → Fin H → Fin W → ℚ) (b : Fin 2) :
    ((tmax2 H W
        (preNormStable 2 hd H W alpha (selectStable downCross upCross) b)
        hH hW = 0) →
      ∀ y xx, threshMask H W hH hW
          (preNormStable 2 hd H W alpha (selectStable downCross upCross) b)
          θ y xx = false) ∧
    ((∀ b2 : Fin 2, tmax2 H W
        (preNormStable 2 hd H W alpha (selectStable downCross upCross) b2)
        hH hW = 0) →
      ∀ c y xx,
        localBlendStable hd C H W hH hW alpha θ downCross upCross x b c y xx
          = x 0 c y xx) := by
  have hmaskfalse : ∀ b2 : Fin 2,
      tmax2 H W
        (preNormStable 2 hd H W alpha (selectStable downCross upCross) b2)
        hH hW = 0 →
      ∀ (y : Fin H) (xx : Fin W), threshMask H W hH hW
        (preNormStable 2 hd H W alpha (selectStable downCross upCross) b2)
        θ y xx = false := by
    intro b2 hmax y xx
    have hle : preNormStable 2 hd H W alpha (selectStable downCross upCross)
        b2 y xx ≤ 0 := by
      have := tmax2_entry_le H W
        (preNormStable 2 hd H W alpha (selectStable downCross upCross) b2)
        hH hW y xx
      rw [hmax] at this
      exact this
    unfold threshMask
    rw [hmax]
    unfold divNorm
    rw [if_pos rfl]
    by_cases hv : preNormStable 2 hd H W alpha
        (selectStable downCross upCross) b2 y xx = 0
    · rw [if_pos hv]
      rfl
    · rw [if_neg hv, if_neg (by
        intro hlt
        exact hv (le_antisymm hle (le_of_lt hlt)))]
      rfl
  constructor
  · intro hmax y xx
    exact hmaskfalse b hmax y xx
  · intro hall c y xx
    unfold localBlendStable
    simp only [unionApplyStable]
    rw [hmaskfalse 0 (hall 0) y xx, hmaskfalse 1 (hall 1) y xx]
    simp only [Bool.or_self, boolToQ_false]
    ring

lemma maxPool3_const_of (m : Fin 16 → Fin 16 → ℚ) (c : ℚ)
    (hm : ∀ y x, m y x = c) (y x : Fin 16) : maxPool3 m y x = c := by
  unfold maxPool3
  have h := foldl_max_eq_of_le (fun u : Fin 16 × Fin 16 => m u.1 u.2)
    ((neighborsIdx 16 y).product (neighborsIdx 16 x)) (m y x)
    (fun u _ => by show m u.1 u.2 ≤ m y x; rw [hm u.1 u.2, hm y x])
  exact h.trans (hm y x)

lemma tmax2_const_of (H W : Nat) (m : Fin H → Fin W → ℚ)
    (hH : 0 < H) (hW : 0 < W) (c : ℚ) (hm : ∀ y x, m y x = c) :
    tmax2 H W m hH hW = c := by
  unfold tmax2
  have h := foldl_max_eq_of_le (fun u : Fin H × Fin W => m u.1 u.2)
    ((List.finRange H).product (List.finRange W)) (m ⟨0, hH⟩ ⟨0, hW⟩)
    (fun u _ => by
      show m u.1 u.2 ≤ m ⟨0, hH⟩ ⟨0, hW⟩
      rw [hm u.1 u.2, hm ⟨0, hH⟩ ⟨0, hW⟩])
  exact h.trans (hm ⟨0, hH⟩ ⟨0, hW⟩)

lemma threshMask_false_of_zero (H W : Nat) (hH : 0 < H) (hW : 0 < W)
    (pre : Fin H → Fin W → ℚ) (θ : ℚ) (hpre : ∀ y x, pre y x = 0)
    (y : Fin H) (x : Fin W) : threshMask H W hH hW pre θ y x = false := by
  unfold threshMask
  rw [tmax2_const_of H W pre hH hW 0 hpre, hpre y x]
  simp [divNorm, gtFl]

lemma threshMask_true_of_const (H W : Nat) (hH : 0 < H) (hW : 0 < W)
    (pre : Fin H → Fin W → ℚ) (θ c : ℚ) (hc : c ≠ 0) (hθ : θ < 1)
    (hpre : ∀ y x, pre y x = c) (y : Fin H) (x : Fin W) :
    threshMask H W hH hW pre θ y x = true := by
  unfold threshMask
  rw [tmax2_const_of H W pre hH hW c hpre, hpre y x]
  unfold divNorm
  rw [if_neg hc, div_self hc]
  simp only [gtFl]
  exact decide_eq_true hθ

/-- Witness for C8 at a concrete input: an empty map selection gives a
pre-normalisation map that is identically zero, and the thresholded mask
of batch element 1 is all-zero. -/
theorem local_blend_zero_max_mask_witness :
    threshMask 1 1 (by decide) (by decide)
        (preNormStable 2 1 1 1 (fun _ _ => 1)
          (selectStable ([] : List (AttnMap 2 1)) []) 1) (3 / 10) 0 0
      = false := by
  have hpre : ∀ (y : Fin 1) (x : Fin 1),
      preNormStable 2 1 1 1 (fun _ _ => 1)
        (selectStable ([] : List (AttnMap 2 1)) []) 1 y x = 0 := by
    intro y x
    have hsal : ∀ (yy : Fin 16) (xx : Fin 16),
        saliency 2 1 (fun _ _ => 1)
          (selectStable ([] : List (AttnMap 2 1)) []) 1 yy xx = 0 := by
      intro yy xx
      simp [saliency, selectStable]
    unfold preNormStable interpNearest
    exact maxPool3_const_of _ 0 hsal _ _
  have hmax : tmax2 1 1
      (preNormStable 2 1 1 1 (fun _ _ => 1)
        (selectStable ([] : List (AttnMap 2 1)) []) 1)
      (by decide) (by decide) = 0 :=
    tmax2_const_of 1 1 _ (by decide) (by decide) 0 hpre
  exact (local_blend_zero_max_mask 1 1 1 1 (by decide) (by decide)
    (fun _ _ => 1) (3 / 10) [] [] (fun _ _ _ _ => 0) 1).1 hmax 0 0

/-- Counterexample for C10: a single store accepted by both variants (four
`down_cross` and six `up_cross` 16x16 maps) on which the two `LocalBlend`
implementations return different latents.  The maps in the slices the
stable variant selects (`down_cross[2:4]`, `up_cross[:3]`) are identically
zero, while the maps in the slices the ldm variant selects
(`down_cross[:2]`, `up_cross[3:6]`) are identically one: the stable
variant's mask comes out all-zero (its per-element maximum is zero, the
normalised values are NaN, `.gt` is false) and it returns the source row,
while the ldm variant's mask comes out all-one and it returns the edited
row unchanged. -/
theorem localblend_variants_differ :
    localBlendStable 1 1 1 1 (by decide) (by decide) (fun _ _ => 1)
        (3 / 10)
        [fun _ _ _ _ _ => (1 : ℚ), fun _ _ _ _ _ => 1,
          fun _ _ _ _ _ => 0, fun _ _ _ _ _ => 0]
        [fun _ _ _ _ _ => 0, fun _ _ _ _ _ => 0, fun _ _ _ _ _ => 0,
          fun _ _ _ _ _ => 1, fun _ _ _ _ _ => 1, fun _ _ _ _ _ => 1]
        (fun b _ _ _ => (b.val : ℚ)) 1 0 0 0
      ≠ localBlendLdm 1 1 1 1 (by decide) (by decide) (fun _ _ => 1)
        (3 / 10)
        [fun _ _ _ _ _ => (1 : ℚ), fun _ _ _ _ _ => 1,
          fun _ _ _ _ _ => 0, fun _ _ _ _ _ => 0]
        [fun _ _ _ _ _ => 0, fun _ _ _ _ _ => 0, fun _ _ _ _ _ => 0,
          fun _ _ _ _ _ => 1, fun _ _ _ _ _ => 1, fun _ _ _ _ _ => 1]
        (fun b _ _ _ => (b.val : ℚ)) 1 0 0 0 := by
  have hsalS : ∀ (b : Fin 2) (yy xx : Fin 16),
      saliency 2 1 (fun _ _ => 1)
        (selectStable
          [fun _ _ _ _ _ => (1 : ℚ), fun _ _ _ _ _ => 1,
            fun _ _ _ _ _ => 0, fun _ _ _ _ _ => 0]
          [fun _ _ _ _ _ => 0, fun _ _ _ _ _ => 0, fun _ _ _ _ _ => 0,
            fun _ _ _ _ _ => 1, fun _ _ _ _ _ => 1, fun _ _ _ _ _ => 1])
        b yy xx = 0 := by
    intro b yy xx
    simp [saliency, selectStable]
  have hsalL : ∀ (b : Fin 2) (yy xx : Fin 16),
      saliency 2 1 (fun _ _ => 1)
        (selectLdm
          [fun _ _ _ _ _ => (1 : ℚ), fun _ _ _ _ _ => 1,
            fun _ _ _ _ _ => 0, fun _ _ _ _ _ => 0]
          [fun _ _ _ _ _ => 0, fun _ _ _ _ _ => 0, fun _ _ _ _ _ => 0,
            fun _ _ _ _ _ => 1, fun _ _ _ _ _ => 1, fun _ _ _ _ _ => 1])
        b yy xx = 77 := by
    intro b yy xx
    simp [saliency, selectLdm]
    norm_num
  have hpreS : ∀ (b : Fin 2) (y x : Fin 1),
      preNormStable 2 1 1 1 (fun _ _ => 1)
        (selectStable
          [fun _ _ _ _ _ => (1 : ℚ), fun _ _ _ _ _ => 1,
            fun _ _ _ _ _ => 0, fun _ _ _ _ _ => 0]
          [fun _ _ _ _ _ => 0, fun _ _ _ _ _ => 0, fun _ _ _ _ _ => 0,
            fun _ _ _ _ _ => 1, fun _ _ _ _ _ => 1, fun _ _ _ _ _ => 1])
        b y x = 0 := by
    intro b y x
    unfold preNormStable interpNearest
    exact maxPool3_const_of _ 0 (hsalS b) _ _
  have hpreL : ∀ (b : Fin 2) (y x : Fin 1),
      preNormLdm 2 1 1 1 (fun _ _ => 1)
        (selectLdm
          [fun _ _ _ _ _ => (1 : ℚ), fun _ _ _ _ _ => 1,
            fun _ _ _ _ _ => 0, fun _ _ _ _ _ => 0]
          [fun _ _ _ _ _ => 0, fun _ _ _ _ _ => 0, fun _ _ _ _ _ => 0,
            fun _ _ _ _ _ => 1, fun _ _ _ _ _ => 1, fun _ _ _ _ _ => 1])
        b y x = 77 := by
    intro b y x
    unfold preNormLdm interpNearest
    exact hsalL b _ _
  have hL : localBlendStable 1 1 1 1 (by decide) (by decide) (fun _ _ => 1)
      (3 / 10)
      [fun _ _ _ _ _ => (1 : ℚ), fun _ _ _ _ _ => 1,
        fun _ _ _ _ _ => 0, fun _ _ _ _ _ => 0]
      [fun _ _ _ _ _ => 0, fun _ _ _ _ _ => 0, fun _ _ _ _ _ => 0,
        fun _ _ _ _ _ => 1, fun _ _ _ _ _ => 1, fun _ _ _ _ _ => 1]
      (fun b _ _ _ => (b.val : ℚ)) 1 0 0 0 = 0 := by
    unfold localBlendStable
    simp only [unionApplyStable]
    rw [threshMask_false_of_zero 1 1 (by decide) (by decide) _ (3 / 10)
        (hpreS 0),
      threshMask_false_of_zero 1 1 (by decide) (by decide) _ (3 / 10)
        (hpreS 1)]
    simp only [Bool.or_self, boolToQ_false]
    norm_num
  have hR : localBlendLdm 1 1 1 1 (by decide) (by decide) (fun _ _ => 1)
      (3 / 10)
      [fun _ _ _ _ _ => (1 : ℚ), fun _ _ _ _ _ => 1,
        fun _ _ _ _ _ => 0, fun _ _ _ _ _ => 0]
      [fun _ _ _ _ _ => 0, fun _ _ _ _ _ => 0, fun _ _ _ _ _ => 0,
        fun _ _ _ _ _ => 1, fun _ _ _ _ _ => 1, fun _ _ _ _ _ => 1]
      (fun b _ _ _ => (b.val : ℚ)) 1 0 0 0 = 1 := by
    unfold localBlendLdm
    simp only [unionApplyLdm]
    rw [threshMask_true_of_const 1 1 (by decide) (by decide) _ (3 / 10) 77
        (by norm_num) (by norm_num) (hpreL 0),
      threshMask_true_of_const 1 1 (by decide) (by decide) _ (3 / 10) 77
        (by norm_num) (by norm_num) (hpreL 1)]
    simp only [Bool.or_self, boolToQ_true]
    norm_num
  rw [hL, hR]
  norm_num

/-- C10 amended: the two `LocalBlend` implementations are not behaviorally
equivalent on a shared store (see the counterexample: they select
different store slices, and the ldm variant resizes the un-pooled maps);
what they do share is the final mask-union-and-application step, which for
the batch-of-2 use produces identical latents from identical thresholded
masks: the stable variant broadcasts the union `mask[0] or mask[1]` over
both rows, the ldm variant unions each row's mask with the source row's,
and on two rows these coincide. -/
theorem local_blend_union_apply_agree (C H W : Nat)
    (mask : Fin 2 → Fin H → Fin W → Bool)
    (x : Fin 2 → Fin C → Fin H → Fin W → ℚ)
    (b : Fin 2) (c : Fin C) (y : Fin H) (xx : Fin W) :
    unionApplyStable C H W mask x b c y xx
      = unionApplyLdm C H W mask x b c y xx := by
  by_cases hb0 : b = 0
  · subst hb0
    simp only [unionApplyStable, unionApplyLdm, Bool.or_self, sub_self,
      mul_zero]
  · have hb1 : b = 1 := by
      have hlt := b.isLt
      have hne : b.val ≠ 0 := fun h => hb0 (Fin.ext h)
      exact Fin.ext (by omega)
    subst hb1
    rfl
